import Mathlib

/-!
Shallow embedding of `src/advanced-vector/vector.h`: a dynamic array (`Vector<T>`)
built on a raw storage block (`RawMemory<T>`).

Modelling choices:
* A `Vector` state is the list of its live elements (the constructed slots
  `[0, size)`) together with the capacity of its raw block.  `size_` is the
  length of that list; the slots `[size, capacity)` are raw and carry no value.
* C++ standard-library calls used by the source (`std::copy_n`,
  `std::uninitialized_copy_n` / `std::uninitialized_move_n`,
  `std::move_backward`, `std::move`, `std::destroy_n`, `std::destroy_at`,
  `std::uninitialized_value_construct_n`) are external primitives; each is
  modelled by its documented net effect on the slot contents, as a separate
  Lean function named after it.
* `InitializeRawMemory` picks move- or copy-construction from type traits; at
  the value level both transfer the same element values, so the model does not
  distinguish them (the choice is noted where it occurs).
* For the exception-safety claims, the fallible element operations
  (constructors, copy assignment) are driven by an explicit oracle saying which
  operation throws, and the run is instrumented with an event trace recording
  allocations, constructions, transfers and destructions, mirroring the
  statements and the RAII cleanup of the source line by line.
-/

namespace AdvVec

/-- State of a `Vector<T>` (`vector.h`, lines 91-305): `elems` are the live
elements in slots `[0, size_)` of the owned `RawMemory` block, `capacity_` is
the block's slot count (`data_.Capacity()`).  `size_` is `elems.length`. -/
structure Vector (α : Type) where
  elems : List α
  capacity_ : Nat
deriving Repr, DecidableEq

namespace Vector

variable {α : Type}

/-- Method `Size()` (line 174): the number of live elements. -/
def Size (s : Vector α) : Nat := s.elems.length

/-- Method `Capacity()` (line 178): the slot count of the owned block. -/
def Capacity (s : Vector α) : Nat := s.capacity_

/-- Default constructor `Vector() = default` (line 97): size 0, capacity 0. -/
def mkEmpty : Vector α := ⟨[], 0⟩

/-- Sized constructor `Vector(size_t size)` (lines 99-102): allocate `size`
slots, `std::uninitialized_value_construct_n(begin(), size)`.  Value
initialization produces the element type's default value. -/
def mkSized [Inhabited α] (n : Nat) : Vector α := ⟨List.replicate n default, n⟩

/-- Copy constructor (lines 104-107): allocate `other.size_` slots
(`data_(other.size_)`), `std::uninitialized_copy_n` the live elements. -/
def copyCtor (other : Vector α) : Vector α := ⟨other.elems, other.elems.length⟩

/-- Move constructor (lines 109-112): `std::exchange` steals the block and the
size; the source is left with the default `RawMemory{}` and size 0.  Returns
(destination, moved-from source).  Declared `noexcept`: it cannot fail. -/
def moveCtor (other : Vector α) : Vector α × Vector α :=
  (⟨other.elems, other.capacity_⟩, ⟨[], 0⟩)

/-- Net effect of `std::copy_n(src, n, dst)` on the destination slot list:
the first `n` slots are copy-assigned from `src`, the rest keep their values. -/
def stdCopyN (src dst : List α) (n : Nat) : List α := src.take n ++ dst.drop n

/-- Copy assignment `operator=(const Vector&)` (lines 114-131).  The `self`
flag mirrors the pointer comparison `this != &rhs` (when `self = true` the two
arguments denote the same object).  Returns the new left-hand state together
with the number of element operations performed (copies, constructions,
destructions) - zero on the self-assignment path, which does nothing. -/
def copyAssign (lhs rhs : Vector α) (self : Bool) : Vector α × Nat :=
  if self then
    (lhs, 0)
  else if lhs.capacity_ < rhs.elems.length then
    -- Vector rhs_copy(rhs); Swap(rhs_copy): adopt a fresh full copy
    (copyCtor rhs,
      rhs.elems.length + lhs.elems.length)
  else if rhs.elems.length < lhs.elems.length then
    -- std::copy_n over the prefix, std::destroy_n the trailing elements
    (⟨(stdCopyN rhs.elems lhs.elems rhs.elems.length).take rhs.elems.length,
        lhs.capacity_⟩,
      lhs.elems.length)
  else
    -- std::copy_n over the whole current contents, then
    -- std::uninitialized_copy_n the extra source elements into raw slots
    (⟨stdCopyN rhs.elems lhs.elems lhs.elems.length
        ++ rhs.elems.drop lhs.elems.length, lhs.capacity_⟩,
      rhs.elems.length)

/-- Move assignment `operator=(Vector&&)` (lines 133-139): guarded by
`this != &rhs`; otherwise steals the source's block and size via
`std::exchange`, leaving the source at size 0 / capacity 0.  Returns
(new left-hand state, moved-from right-hand state).  Declared `noexcept`. -/
def moveAssign (lhs rhs : Vector α) (self : Bool) : Vector α × Vector α :=
  if self then (lhs, rhs)
  else (⟨rhs.elems, rhs.capacity_⟩, ⟨[], 0⟩)

/-- Method `Swap` (lines 141-144): exchanges blocks and sizes. -/
def SwapV (a b : Vector α) : Vector α × Vector α := (b, a)

/-- Net effect of `InitializeRawMemory(source_start, count, dest_start)`
(lines 298-304) writing `src` into the raw destination slots starting at
`start`: `std::uninitialized_move_n` when the element's move construction is
`noexcept` (or it is not copyable), else `std::uninitialized_copy_n` - either
way the destination slots `[start, start + src.length)` become constructed
with the source's element values. -/
def writeRange (dst : List (Option α)) (start : Nat) (src : List α) :
    List (Option α) :=
  dst.take start ++ src.map some ++ dst.drop (start + src.length)

/-- The live prefix of a raw slot list: the values of the first `n` slots,
which the caller has constructed. -/
def extractLive (slots : List (Option α)) (n : Nat) : List α :=
  (slots.take n).reduceOption

/-- Method `Reserve(new_capacity)` (lines 191-199): no-op when
`new_capacity <= Capacity()`; otherwise allocate `new_capacity` slots,
`InitializeRawMemory` the live elements into them, `std::destroy_n` the old
ones and adopt the new block via `data_.Swap`. -/
def Reserve (s : Vector α) (n : Nat) : Vector α :=
  if n ≤ s.capacity_ then s
  else
    ⟨extractLive (writeRange (List.replicate n none) 0 s.elems) s.elems.length,
      n⟩

/-- Method `Resize(new_size)` (lines 201-209): shrink by destroying the trailing
elements, or grow by `Reserve` plus value-initializing the new tail; `size_`
is assigned last. -/
def Resize [Inhabited α] (s : Vector α) (n : Nat) : Vector α :=
  if n < s.elems.length then ⟨s.elems.take n, s.capacity_⟩
  else
    let s1 := Reserve s n
    ⟨s1.elems ++ List.replicate (n - s.elems.length) default, s1.capacity_⟩

/-- Method `PopBack()` (lines 219-222): `std::destroy_at(begin() + size_ - 1)` then
`--size_`, with no assertion or emptiness check in the body.  The list-level
net effect is meaningful only under the non-empty precondition; the empty
call is undefined behavior in the source, where the `size_t` decrement and
the destroyed slot index wrap (modelled by `PopBackSizeAfter` and
`PopBackDestroySlot`), so no liveness model fits it. -/
def PopBack (s : Vector α) : Vector α := ⟨s.elems.dropLast, s.capacity_⟩

/-- Method `EmplaceBack(args...)` (lines 224-242), success path (no element operation
throws).  When `size_ == Capacity()`: allocate `size_ == 0 ? 1 : size_ * 2`
slots, placement-new the new element at slot `size_` of the new block,
`InitializeRawMemory` the old elements into slots `[0, size_)`, destroy the
old ones, adopt the new block.  Otherwise placement-new at `begin() + size_`.
Then `++size_`. -/
def EmplaceBack (s : Vector α) (v : α) : Vector α :=
  if s.elems.length = s.capacity_ then
    let ncap := if s.elems.length = 0 then 1 else s.elems.length * 2
    let slots1 := (List.replicate ncap (none : Option α)).set s.elems.length
      (some v)
    let slots2 := writeRange slots1 0 s.elems
    ⟨extractLive slots2 (s.elems.length + 1), ncap⟩
  else ⟨s.elems ++ [v], s.capacity_⟩

/-- Methods `PushBack(const T&)` and `PushBack(T&&)` (lines 211-217): both forward to
`EmplaceBack`. -/
def PushBack (s : Vector α) (v : α) : Vector α := EmplaceBack s v

/-- Net effect of `new (end()) T(std::move(*(end() - 1)))` (line 267):
move-construct the current last element into the raw slot at index `size_`,
extending the live slot list by a copy of its last value. -/
def placeLastAtEnd (l : List α) : List α := l ++ l.drop (l.length - 1)

/-- Net effect of `std::move_backward(first, last, d_last)` on the live slot
list `l`, with `first`, `cnt = last - first` and `dlast` given as indices:
slots `[dlast - cnt, dlast)` receive the values of slots `[first, first+cnt)`
(copied back to front so overlap is safe); other slots keep their values. -/
def stdMoveBackward (l : List α) (first cnt dlast : Nat) : List α :=
  l.take (dlast - cnt) ++ (l.drop first).take cnt ++ l.drop dlast

/-- Method `Emplace(pos, args...)` (lines 244-276), success path.  `i` is
`std::distance(cbegin(), pos)`.  Growing path (`size_ == Capacity()`):
allocate `size_ == 0 ? 1 : size_ * 2` slots, placement-new the new element at
slot `i` of the new block, `InitializeRawMemory` the head `[0, i)` to
`[0, i)` and the tail `[i, size_)` to `[i + 1, size_ + 1)`, destroy the old
elements, adopt the block.  Non-growing path with `i != size_`:
move-construct the last element into the slot at `size_`,
`std::move_backward(begin() + i, end() - 1, end())`, then assign
`data_[i] = T(args...)`; with `i == size_`: placement-new at `begin() + i`.
Then `++size_`.  Returns (new state, `begin() + index` as the index). -/
def Emplace (s : Vector α) (i : Nat) (v : α) : Vector α × Nat :=
  if s.elems.length = s.capacity_ then
    let ncap := if s.elems.length = 0 then 1 else s.elems.length * 2
    let slots1 := (List.replicate ncap (none : Option α)).set i (some v)
    let slots2 := writeRange slots1 0 (s.elems.take i)
    let slots3 := writeRange slots2 (i + 1) (s.elems.drop i)
    (⟨extractLive slots3 (s.elems.length + 1), ncap⟩, i)
  else
    if i = s.elems.length then (⟨s.elems ++ [v], s.capacity_⟩, i)
    else
      let l1 := placeLastAtEnd s.elems
      let l2 := stdMoveBackward l1 i (s.elems.length - 1 - i) s.elems.length
      (⟨l2.set i v, s.capacity_⟩, i)

/-- Method `Insert(pos, value)` (lines 286-292): both overloads forward to
`Emplace`. -/
def Insert (s : Vector α) (i : Nat) (v : α) : Vector α × Nat := Emplace s i v

/-- Net effect of `std::move(first, last, d_first)` on the live slot list:
slots `[dfirst, dfirst + cnt)` receive the values of slots
`[first, first + cnt)` (front to back), `cnt = last - first`; other slots
keep their values. -/
def stdMoveRange (l : List α) (first cnt dfirst : Nat) : List α :=
  l.take dfirst ++ (l.drop first).take cnt ++ l.drop (dfirst + cnt)

/-- Method `Erase(pos)` (lines 278-284): `std::move(begin() + index + 1, end(),
begin() + index)` closes the gap, then `PopBack()` destroys the last slot and
decrements `size_`; returns `begin() + index`.  Returns (new state, index). -/
def Erase (s : Vector α) (i : Nat) : Vector α × Nat :=
  let shifted := stdMoveRange s.elems (i + 1) (s.elems.length - (i + 1)) i
  (PopBack ⟨shifted, s.capacity_⟩, i)

/-- The `noexcept` specification of `Erase` (line 278):
`noexcept(std::is_nothrow_move_assignable_v<T>)`, as a function of that type
trait. -/
def EraseNoexceptSpec (isNothrowMoveAssignable : Bool) : Bool :=
  isNothrowMoveAssignable

/-- Well-formedness of a vector state: the live elements fit in the block
(`0 <= size` holds by the type).  The slots `[size, capacity)` carry no value
by the choice of representation. -/
def WF (s : Vector α) : Prop := s.elems.length ≤ s.capacity_

instance (s : Vector α) : Decidable (WF s) := by
  unfold WF; infer_instance

end Vector

/-- Events of an `EmplaceBack` run, at the granularity of the source's memory
and element operations:
* `allocB n` - `RawMemory<T> new_data(n)`: `operator new` for `n` slots
  (`n == 0` would be the empty sentinel with no allocation);
* `constructNew i` - `new (new_data.GetAddress() + i) T(args...)`;
* `transfer i` - `InitializeRawMemory` move- or copy-constructs old element
  `i` into the new block;
* `destroyTransferred k` - the rollback of `std::uninitialized_move_n` /
  `std::uninitialized_copy_n`: it destroys the `k` elements it had already
  constructed when element `k`'s transfer threw;
* `destroyNew` - `std::destroy_at(new_data.GetAddress() + size_)` in the
  catch handler;
* `destroyOldRange n` - `std::destroy_n(begin(), size_)` on the old block;
* `deallocB n` - `~RawMemory` releasing a block of `n` slots
  (`operator delete`, a no-op on the `n == 0` null sentinel). -/
inductive GrowEv where
  | allocB (n : Nat)
  | constructNew (i : Nat)
  | transfer (i : Nat)
  | destroyTransferred (k : Nat)
  | destroyNew
  | destroyOldRange (n : Nat)
  | deallocB (n : Nat)
deriving Repr, DecidableEq

/-- Whether an event transfers an existing element into the new block. -/
def GrowEv.isTransfer : GrowEv → Bool
  | allocB _ => false
  | constructNew _ => false
  | transfer _ => true
  | destroyTransferred _ => false
  | destroyNew => false
  | destroyOldRange _ => false
  | deallocB _ => false

/-- Contribution of one event to the count of outstanding heap blocks:
`allocB` of a non-empty block acquires one, `deallocB` of a non-empty block
releases one, element-level events do not touch the heap. -/
def GrowEv.blockDelta : GrowEv → Int
  | allocB n => if n = 0 then 0 else 1
  | constructNew _ => 0
  | transfer _ => 0
  | destroyTransferred _ => 0
  | destroyNew => 0
  | destroyOldRange _ => 0
  | deallocB n => if n = 0 then 0 else -1

/-- Net number of heap blocks acquired minus released over a run. -/
def netAlloc (evs : List GrowEv) : Int := (evs.map GrowEv.blockDelta).sum

namespace Vector

variable {α : Type}

/-- Run of `EmplaceBack(args...)` (lines 224-242) under a throw oracle:
`ctorThrows` makes `new (...) T(args...)` throw, and `failAt = some j` makes
`InitializeRawMemory` throw while transferring old element `j` (only indices
`j < size_` are reachable).  The result is `Except.error` with the observable
vector state when the exception propagates to the caller, or `Except.ok` with
the state after a successful run, paired with the event trace.  The
translation follows the source line by line:
* growing path: allocate, construct the new element at slot `size_` of the
  new block (on throw, the local `RawMemory` destructor releases the block
  and nothing else happened); transfer the old elements (on a throw at
  element `j`, the transfer rolls back its `j` constructions, the catch
  handler destroys the new element, rethrows, and the local block is
  released); on success destroy the old elements and swap blocks;
* non-growing path: construct in place (a throw leaves the vector as it was
  and touches no heap block). -/
def EmplaceBackRun (s : Vector α) (v : α) (ctorThrows : Bool)
    (failAt : Option Nat) : Except (Vector α) (Vector α) × List GrowEv :=
  if s.elems.length = s.capacity_ then
    let n := s.elems.length
    let ncap := if n = 0 then 1 else n * 2
    if ctorThrows then
      (Except.error s, [GrowEv.allocB ncap, GrowEv.deallocB ncap])
    else
      match failAt with
      | some j =>
        if j < n then
          (Except.error s,
            [GrowEv.allocB ncap, GrowEv.constructNew n] ++
              (List.range j).map GrowEv.transfer ++
              [GrowEv.destroyTransferred j, GrowEv.destroyNew,
                GrowEv.deallocB ncap])
        else
          (Except.ok (EmplaceBack s v),
            [GrowEv.allocB ncap, GrowEv.constructNew n] ++
              (List.range n).map GrowEv.transfer ++
              [GrowEv.destroyOldRange n, GrowEv.deallocB s.capacity_])
      | none =>
        (Except.ok (EmplaceBack s v),
          [GrowEv.allocB ncap, GrowEv.constructNew n] ++
            (List.range n).map GrowEv.transfer ++
            [GrowEv.destroyOldRange n, GrowEv.deallocB s.capacity_])
  else
    if ctorThrows then (Except.error s, [])
    else (Except.ok (EmplaceBack s v), [GrowEv.constructNew s.elems.length])

/-- Run of the in-place (non-reallocating) branch of the copy assignment
(lines 119-128, taken when `rhs.size_ <= Capacity()` and `this != &rhs`)
under a throw oracle: `failAt = some j` makes the element operation on source
index `j` throw - the copy assignment inside `std::copy_n` when
`j < min(rhs.size_, size_)`, the copy construction inside
`std::uninitialized_copy_n` when `size_ <= j < rhs.size_` (which rolls back
the extra elements it had constructed).  `size_ = rhs.size_` runs only after
the loops, so an error state keeps the old size; `std::destroy_n` of the
trailing elements cannot throw. -/
def copyAssignInPlaceRun (lhs rhs : Vector α) (failAt : Option Nat) :
    Except (Vector α) (Vector α) :=
  let ok : Vector α :=
    if rhs.elems.length < lhs.elems.length then
      ⟨(stdCopyN rhs.elems lhs.elems rhs.elems.length).take rhs.elems.length,
        lhs.capacity_⟩
    else
      ⟨stdCopyN rhs.elems lhs.elems lhs.elems.length ++
        rhs.elems.drop lhs.elems.length, lhs.capacity_⟩
  match failAt with
  | some j =>
    if j < min rhs.elems.length lhs.elems.length then
      Except.error ⟨stdCopyN rhs.elems lhs.elems j, lhs.capacity_⟩
    else if lhs.elems.length ≤ j ∧ j < rhs.elems.length then
      Except.error ⟨stdCopyN rhs.elems lhs.elems lhs.elems.length,
        lhs.capacity_⟩
    else
      Except.ok ok
  | none => Except.ok ok

/-- Assertion in `operator[]` (line 187): `assert(index < size_)`. -/
def subscriptAssert (s : Vector α) (i : Nat) : Bool := decide (i < s.elems.length)

/-- Assertion in `Erase` (line 279): `assert(pos >= begin() && pos < end())`,
i.e. the erased index lies in `[0, size_)`. -/
def EraseAssert (s : Vector α) (i : Nat) : Bool := decide (i < s.elems.length)

/-- Assertion in `Emplace` (line 245): `assert(pos >= begin() && pos <= end())`,
i.e. the insertion index lies in `[0, size_]`. -/
def EmplaceAssert (s : Vector α) (i : Nat) : Bool := decide (i ≤ s.elems.length)

/-- The debug-time check performed by the body of `PopBack` (lines 219-222):
the body contains no `assert` at all, so the check every call passes is the
vacuous one. -/
def PopBackAssert (_s : Vector α) : Bool := true

/-- The value of `size_` (a `size_t`, 64-bit unsigned) after `--size_` in
`PopBack`, with the wrap-around of unsigned arithmetic. -/
def PopBackSizeAfter (size : Nat) : Nat := (size + (2 ^ 64 - 1)) % 2 ^ 64

/-- The slot index `size_ - 1` destroyed by
`std::destroy_at(begin() + size_ - 1)` in `PopBack`, computed in `size_t`
arithmetic. -/
def PopBackDestroySlot (size : Nat) : Nat := (size + (2 ^ 64 - 1)) % 2 ^ 64

/-- Appending `k` copies of `v` to a default-constructed vector by repeated
`EmplaceBack`. -/
def AppendK (v : α) : Nat → Vector α
  | 0 => mkEmpty
  | k + 1 => EmplaceBack (AppendK v k) v

end Vector

namespace Vector

variable {α : Type}

theorem reduceOption_map_some (l : List α) : (l.map some).reduceOption = l := by
  induction l with
  | nil => rfl
  | cons a t ih => simp [ih]

theorem extractLive_all (l : List α) (rest : List (Option α)) :
    extractLive (l.map some ++ rest) l.length = l := by
  unfold extractLive
  rw [List.take_left' (by simp), reduceOption_map_some]

/-- Setting slot `i` of an all-raw block of `n` slots. -/
theorem set_replicate_none (n i : Nat) (v : α) (h : i < n) :
    (List.replicate n (none : Option α)).set i (some v) =
      List.replicate i (none : Option α) ++ some v ::
        List.replicate (n - i - 1) (none : Option α) := by
  rw [List.set_eq_take_cons_drop _ (by simpa using h), List.take_replicate,
    List.drop_replicate, Nat.min_eq_left h.le, Nat.sub_sub]

/-- Writing the live elements and the new last element into a fresh block of
more than `length` slots yields exactly `elems ++ [v]` as the live prefix. -/
theorem writeRange_fresh_emplaceBack (l : List α) (v : α) (ncap : Nat)
    (hlt : l.length < ncap) :
    extractLive (writeRange ((List.replicate ncap (none : Option α)).set
      l.length (some v)) 0 l) (l.length + 1) = l ++ [v] := by
  have hdrop : ((List.replicate ncap (none : Option α)).set l.length
      (some v)).drop l.length =
      some v :: List.replicate (ncap - l.length - 1) (none : Option α) := by
    rw [set_replicate_none _ _ _ hlt, List.drop_left' (by simp)]
  unfold writeRange
  rw [List.take_zero, Nat.zero_add, List.nil_append, hdrop]
  have hmap : l.map some ++ some v ::
      List.replicate (ncap - l.length - 1) (none : Option α) =
      (l ++ [v]).map some ++
        List.replicate (ncap - l.length - 1) (none : Option α) := by
    simp
  rw [hmap]
  have h2 := extractLive_all (l ++ [v])
    (List.replicate (ncap - l.length - 1) (none : Option α))
  simpa using h2

/-- The new capacity chosen by the growing paths (`size_ == 0 ? 1 : size_ * 2`)
is strictly larger than the old size. -/
theorem newCap_gt (n : Nat) : n < (if n = 0 then 1 else n * 2) := by
  rcases Nat.eq_zero_or_pos n with h0 | h0
  · simp [h0]
  · rw [if_neg (Nat.pos_iff_ne_zero.mp h0)]; omega

/-- Characterization of the success path of `EmplaceBack`: the new element is
appended, and the capacity doubles (from a floor of 1) exactly when the vector
was full. -/
theorem EmplaceBack_spec (s : Vector α) (v : α) :
    (EmplaceBack s v).elems = s.elems ++ [v] ∧
      (EmplaceBack s v).capacity_ =
        (if s.elems.length = s.capacity_ then
          (if s.elems.length = 0 then 1 else s.elems.length * 2)
        else s.capacity_) := by
  unfold EmplaceBack
  by_cases hful : s.elems.length = s.capacity_
  · rw [if_pos hful, if_pos hful]
    exact ⟨writeRange_fresh_emplaceBack s.elems v _ (newCap_gt _), rfl⟩
  · rw [if_neg hful, if_neg hful]
    exact ⟨rfl, rfl⟩

/-- Writing the head sub-range into slots `[0, i)` and the tail sub-range into
slots `[i + 1, length + 1)` of a fresh block, around the new element already
constructed at slot `i`, yields the inserted sequence as the live prefix. -/
theorem writeRange_fresh_emplace (l : List α) (i : Nat) (v : α) (ncap : Nat)
    (hi : i ≤ l.length) (hlt : l.length < ncap) :
    extractLive (writeRange (writeRange ((List.replicate ncap
      (none : Option α)).set i (some v)) 0 (l.take i)) (i + 1) (l.drop i))
      (l.length + 1) = l.take i ++ v :: l.drop i := by
  have hic : i < ncap := lt_of_le_of_lt hi hlt
  have hlentake : (l.take i).length = i := by
    simp only [List.length_take]
    omega
  have hs2 : writeRange ((List.replicate ncap (none : Option α)).set i
      (some v)) 0 (l.take i) =
      ((l.take i).map some ++ [some v]) ++
        List.replicate (ncap - i - 1) (none : Option α) := by
    unfold writeRange
    rw [List.take_zero, Nat.zero_add, List.nil_append, hlentake,
      set_replicate_none _ _ _ hic,
      List.drop_left' (by simp only [List.length_replicate])]
    simp
  rw [hs2]
  unfold writeRange
  rw [List.take_left' (by simp only [List.length_append, List.length_map,
    hlentake, List.length_cons, List.length_nil])]
  have hlen : (l.take i ++ v :: l.drop i).length = l.length + 1 := by
    simp only [List.length_append, List.length_take, List.length_cons,
      List.length_drop]
    omega
  have key := extractLive_all (l.take i ++ v :: l.drop i)
    ((((l.take i).map some ++ [some v]) ++
      List.replicate (ncap - i - 1) (none : Option α)).drop
        ((i + 1) + (l.drop i).length))
  rw [hlen] at key
  simpa [List.append_assoc] using key

/-- The non-growing shifting branch of `Emplace` (move-construct the last
element one past the end, `std::move_backward` the range `[i, size - 1)` one
slot right, assign the new value at `i`) realizes insertion at index `i`. -/
theorem shift_insert_eq (l : List α) (i : Nat) (v : α) (hi : i < l.length) :
    (stdMoveBackward (placeLastAtEnd l) i (l.length - 1 - i) l.length).set i v
      = l.take i ++ v :: l.drop i := by
  unfold placeLastAtEnd stdMoveBackward
  have h1 : l.length - (l.length - 1 - i) = i + 1 := by omega
  rw [h1, List.take_append_of_le_length (by omega),
    List.drop_append_of_le_length (by omega), List.drop_left' rfl,
    List.take_append_of_le_length (by simp only [List.length_drop]; omega)]
  have hmid : (l.drop i).take (l.length - 1 - i) ++ l.drop (l.length - 1) =
      l.drop i := by
    rw [← List.drop_take,
      ← List.drop_append_of_le_length (by
        simp only [List.length_take]
        omega),
      List.take_append_drop]
  rw [List.append_assoc, hmid, List.set_eq_take_cons_drop v (by
    simp only [List.length_append, List.length_take, List.length_drop]
    omega)]
  rw [List.take_append_of_le_length (by
      simp only [List.length_take]
      omega),
    List.take_take, inf_of_le_left (Nat.le_succ i),
    List.drop_left' (by simp only [List.length_take]; omega)]

/-- Characterization of the success path of `Emplace`: both the growing and the
non-growing branch insert the new element at index `i`, keeping the prefix and
the (shifted) suffix in order, and return index `i`. -/
theorem Emplace_spec (s : Vector α) (i : Nat) (v : α) (hi : i ≤ s.elems.length) :
    (Emplace s i v).1.elems = s.elems.take i ++ v :: s.elems.drop i ∧
      (Emplace s i v).1.capacity_ =
        (if s.elems.length = s.capacity_ then
          (if s.elems.length = 0 then 1 else s.elems.length * 2)
        else s.capacity_) ∧
      (Emplace s i v).2 = i := by
  unfold Emplace
  by_cases hful : s.elems.length = s.capacity_
  · rw [if_pos hful, if_pos hful]
    exact ⟨writeRange_fresh_emplace s.elems i v _ hi (newCap_gt _), rfl, rfl⟩
  · rw [if_neg hful, if_neg hful]
    by_cases hend : i = s.elems.length
    · rw [if_pos hend]
      refine ⟨?_, rfl, rfl⟩
      rw [hend, List.take_length, List.drop_length]
    · rw [if_neg hend]
      exact ⟨shift_insert_eq s.elems i v (by omega), rfl, rfl⟩

/-- Characterization of `Erase` at a valid index: the element at `i` is
removed, the later elements shift one slot left in order, the capacity is
untouched and the returned position is `i`. -/
theorem Erase_spec (s : Vector α) (i : Nat) (hi : i < s.elems.length) :
    (Erase s i).1.elems = s.elems.take i ++ s.elems.drop (i + 1) ∧
      (Erase s i).1.capacity_ = s.capacity_ ∧ (Erase s i).2 = i := by
  refine ⟨?_, rfl, rfl⟩
  show (stdMoveRange s.elems (i + 1) (s.elems.length - (i + 1)) i).dropLast = _
  unfold stdMoveRange
  have h2 : (s.elems.drop (i + 1)).take (s.elems.length - (i + 1)) =
      s.elems.drop (i + 1) :=
    List.take_of_length_le (by simp only [List.length_drop]; omega)
  have h3 : i + (s.elems.length - (i + 1)) = s.elems.length - 1 := by omega
  rw [h2, h3, List.dropLast_eq_take]
  have h4 : ((s.elems.take i ++ s.elems.drop (i + 1)) ++
      s.elems.drop (s.elems.length - 1)).length - 1 = s.elems.length - 1 := by
    simp only [List.length_append, List.length_take, List.length_drop]
    omega
  rw [h4]
  exact List.take_left' (by
    simp only [List.length_append, List.length_take, List.length_drop]
    omega)

/-- Characterization of `Reserve`: the live elements are preserved and the
capacity only ever grows, to exactly `n` when `n` exceeds it. -/
theorem Reserve_spec (s : Vector α) (n : Nat) :
    (Reserve s n).elems = s.elems ∧
      (Reserve s n).capacity_ = (if n ≤ s.capacity_ then s.capacity_ else n) := by
  unfold Reserve
  by_cases h : n ≤ s.capacity_
  · rw [if_pos h, if_pos h]
    exact ⟨rfl, rfl⟩
  · rw [if_neg h, if_neg h]
    refine ⟨?_, rfl⟩
    unfold writeRange
    simp only [List.take_zero, List.nil_append]
    exact extractLive_all _ _

/-- C9: For every vector and every `k` with `k <= current capacity`,
`Reserve(k)` is a no-op: the capacity never changes, and the size and all
elements are also unchanged. -/
theorem claim_reserve_noop (s : Vector α) (k : Nat) (h : k ≤ s.Capacity) :
    Reserve s k = s := by
  unfold Reserve
  rw [if_pos (show k ≤ s.capacity_ from h)]

/-- Witness for C9 at a concrete input. -/
theorem claim_reserve_noop_witness :
    Reserve (⟨[1, 2], 5⟩ : Vector Nat) 3 = ⟨[1, 2], 5⟩ :=
  claim_reserve_noop ⟨[1, 2], 5⟩ 3 (by decide)

/-- C8: Move construction and move assignment (between distinct objects, the
`this != &rhs` branch) never fail - they are total functions translated from
`noexcept` operations - the destination ends up holding exactly the source's
former elements, size and capacity, and the moved-from source is left at
size 0 and capacity 0. -/
theorem claim_move_semantics (s lhs rhs : Vector α) :
    (moveCtor s).1.Size = s.Size ∧ (moveCtor s).1.Capacity = s.Capacity ∧
    (moveCtor s).1.elems = s.elems ∧
    (moveCtor s).2.Size = 0 ∧ (moveCtor s).2.Capacity = 0 ∧
    (moveAssign lhs rhs false).1.Size = rhs.Size ∧
    (moveAssign lhs rhs false).1.Capacity = rhs.Capacity ∧
    (moveAssign lhs rhs false).1.elems = rhs.elems ∧
    (moveAssign lhs rhs false).2.Size = 0 ∧
    (moveAssign lhs rhs false).2.Capacity = 0 := by
  simp [moveCtor, moveAssign, Size, Capacity]

/-- C10: Self-assignment is the identity: both the copy assignment `v = v`
and the move assignment `v = move(v)` are guarded by the explicit
`this != &rhs` check, leave the state unchanged, and perform no element
operation at all. -/
theorem claim_self_assign_identity (v : Vector α) :
    copyAssign v v true = (v, 0) ∧ moveAssign v v true = (v, v) :=
  ⟨rfl, rfl⟩

/-- C2: `Emplace` (and `Insert`, which forwards to it) at any position
`i <= size` preserves the relative order of the pre-existing elements (they
remain, split around the new element, in their original order), places the
new element exactly at index `i`, increases the size by 1, and returns
position `i` - on the growing path and the non-growing path alike. -/
theorem claim_emplace_insert (s : Vector α) (i : Nat) (v : α)
    (hi : i ≤ s.Size) :
    (Emplace s i v).1.elems = s.elems.take i ++ v :: s.elems.drop i ∧
    (Emplace s i v).1.elems[i]? = some v ∧
    (Emplace s i v).1.Size = s.Size + 1 ∧
    (Emplace s i v).2 = i ∧
    Insert s i v = Emplace s i v := by
  have hi' : i ≤ s.elems.length := hi
  obtain ⟨h1, _h2, h3⟩ := Emplace_spec s i v hi'
  have hlentake : (s.elems.take i).length = i := by
    simp only [List.length_take]
    omega
  refine ⟨h1, ?_, ?_, h3, rfl⟩
  · rw [h1, List.getElem?_append_right (by omega), hlentake]
    simp
  · show (Emplace s i v).1.elems.length = s.elems.length + 1
    rw [h1]
    simp only [List.length_append, List.length_take, List.length_cons,
      List.length_drop]
    omega

/-- Witness for C2 at a concrete growing-path input. -/
theorem claim_emplace_insert_witness :
    (Emplace (⟨[1, 2, 4], 3⟩ : Vector Nat) 2 3).1.elems = [1, 2, 3, 4] ∧
    (Emplace (⟨[1, 2, 4], 3⟩ : Vector Nat) 2 3).2 = 2 := by
  have h := claim_emplace_insert (⟨[1, 2, 4], 3⟩ : Vector Nat) 2 3 (by decide)
  exact ⟨h.1.trans rfl, h.2.2.2.1⟩

/-- C7: For every valid index `i < size`, `Erase(i)` removes exactly the
element at index `i`, shifts every later element one position earlier
(preserving their relative order), decreases the size by 1, and its
`noexcept` specification is exactly the element type's
`is_nothrow_move_assignable` trait. -/
theorem claim_erase_shift (s : Vector α) (i : Nat) (hi : i < s.Size) :
    (Erase s i).1.elems = s.elems.take i ++ s.elems.drop (i + 1) ∧
    (Erase s i).1.Size = s.Size - 1 ∧
    (Erase s i).1.Capacity = s.Capacity ∧
    (Erase s i).2 = i ∧
    (∀ b, EraseNoexceptSpec b = true ↔ b = true) := by
  have hi' : i < s.elems.length := hi
  obtain ⟨h1, h2, h3⟩ := Erase_spec s i hi'
  refine ⟨h1, ?_, h2, h3, fun b => Iff.rfl⟩
  show (Erase s i).1.elems.length = s.elems.length - 1
  rw [h1]
  simp only [List.length_append, List.length_take, List.length_drop]
  omega

/-- Witness for C7 at a concrete input. -/
theorem claim_erase_shift_witness :
    (Erase (⟨[1, 2, 3, 4], 4⟩ : Vector Nat) 1).1.elems = [1, 3, 4] ∧
    (Erase (⟨[1, 2, 3, 4], 4⟩ : Vector Nat) 1).2 = 1 := by
  have h := claim_erase_shift (⟨[1, 2, 3, 4], 4⟩ : Vector Nat) 1 (by decide)
  exact ⟨h.1.trans rfl, h.2.2.2.1⟩

/-- C4: A growing append (`size == capacity`) allocates a new block of
capacity `max(1, 2 * old capacity)`, and appending `k >= 1` elements to a
default-constructed vector yields size `k` and a capacity that follows the
doubling sequence `1, 2, 4, 8, ...`: it is the unique power of two in
`[k, 2 * k)`. -/
theorem claim_append_doubling (v : α) :
    (∀ s : Vector α, s.Size = s.Capacity →
      (EmplaceBack s v).Capacity = max 1 (2 * s.Capacity)) ∧
    (∀ k, 1 ≤ k →
      (AppendK v k).Size = k ∧
      k ≤ (AppendK v k).Capacity ∧ (AppendK v k).Capacity < 2 * k ∧
      ∃ m, (AppendK v k).Capacity = 2 ^ m) := by
  constructor
  · intro s h
    have h' : s.elems.length = s.capacity_ := h
    obtain ⟨_, h2⟩ := EmplaceBack_spec s v
    show (EmplaceBack s v).capacity_ = max 1 (2 * s.capacity_)
    rw [h2, if_pos h']
    by_cases h0 : s.elems.length = 0
    · rw [if_pos h0, ← h', h0]
      omega
    · rw [if_neg h0]
      omega
  · intro k hk
    induction k with
    | zero => omega
    | succ k ih =>
      obtain ⟨he, hc⟩ := EmplaceBack_spec (AppendK v k) v
      rcases Nat.eq_zero_or_pos k with h0 | hpos
      · subst h0
        have hsz : (AppendK v 1).Size = 1 := by
          show (EmplaceBack (AppendK v 0) v).elems.length = 1
          rw [he]
          simp [AppendK, mkEmpty]
        have hcap : (AppendK v 1).Capacity = 1 := by
          show (EmplaceBack (AppendK v 0) v).capacity_ = 1
          rw [hc]
          simp [AppendK, mkEmpty]
        exact ⟨hsz, by rw [hcap], by rw [hcap]; omega, 0, by rw [hcap]; rfl⟩
      · obtain ⟨ih1, ih2, ih3, m, ih4⟩ := ih hpos
        have ih1' : (AppendK v k).elems.length = k := ih1
        have hsz : (AppendK v (k + 1)).Size = k + 1 := by
          show (EmplaceBack (AppendK v k) v).elems.length = k + 1
          rw [he]
          simp [ih1']
        refine ⟨hsz, ?_⟩
        show k + 1 ≤ (EmplaceBack (AppendK v k) v).capacity_ ∧
          (EmplaceBack (AppendK v k) v).capacity_ < 2 * (k + 1) ∧
          ∃ m2, (EmplaceBack (AppendK v k) v).capacity_ = 2 ^ m2
        rw [hc]
        by_cases hful : (AppendK v k).elems.length = (AppendK v k).capacity_
        · rw [if_pos hful, if_neg (by omega)]
          have hkcap : (AppendK v k).capacity_ = k := by rw [← hful, ih1']
          have hk2 : k = 2 ^ m := by
            have : (AppendK v k).Capacity = 2 ^ m := ih4
            rw [Capacity, hkcap] at this
            exact this
          refine ⟨by omega, by omega, m + 1, ?_⟩
          rw [ih1', hk2, pow_succ, Nat.mul_comm]
        · rw [if_neg hful]
          have hlt : k < (AppendK v k).capacity_ := by
            have h2 : k ≤ (AppendK v k).Capacity := ih2
            rw [Capacity] at h2
            omega
          have h3 : (AppendK v k).capacity_ < 2 * k := ih3
          exact ⟨by omega, by omega, m, ih4⟩

/-- Witness for C4 at `k = 5`: size 5 and the capacity is the power of two in
`[5, 10)`, namely 8. -/
theorem claim_append_doubling_witness :
    (AppendK (0 : Nat) 5).Size = 5 ∧ 5 ≤ (AppendK (0 : Nat) 5).Capacity ∧
    (AppendK (0 : Nat) 5).Capacity < 2 * 5 ∧
    ∃ m, (AppendK (0 : Nat) 5).Capacity = 2 ^ m :=
  (claim_append_doubling (0 : Nat)).2 5 (by decide)

theorem WF_EmplaceBack (s : Vector α) (v : α) (h : WF s) :
    WF (EmplaceBack s v) := by
  obtain ⟨h1, h2⟩ := EmplaceBack_spec s v
  unfold WF at h ⊢
  rw [h1, h2]
  simp only [List.length_append, List.length_cons, List.length_nil]
  by_cases hful : s.elems.length = s.capacity_
  · rw [if_pos hful]
    by_cases h0 : s.elems.length = 0
    · rw [if_pos h0]
      omega
    · rw [if_neg h0]
      omega
  · rw [if_neg hful]
    omega

theorem WF_Emplace (s : Vector α) (i : Nat) (v : α) (h : WF s)
    (hi : i ≤ s.elems.length) : WF (Emplace s i v).1 := by
  obtain ⟨h1, h2, _⟩ := Emplace_spec s i v hi
  unfold WF at h ⊢
  rw [h1, h2]
  simp only [List.length_append, List.length_take, List.length_cons,
    List.length_drop]
  by_cases hful : s.elems.length = s.capacity_
  · rw [if_pos hful]
    by_cases h0 : s.elems.length = 0
    · rw [if_pos h0]
      omega
    · rw [if_neg h0]
      omega
  · rw [if_neg hful]
    omega

theorem WF_Reserve (s : Vector α) (n : Nat) (h : WF s) : WF (Reserve s n) := by
  obtain ⟨h1, h2⟩ := Reserve_spec s n
  unfold WF at h ⊢
  rw [h1, h2]
  by_cases hn : n ≤ s.capacity_
  · rw [if_pos hn]
    omega
  · rw [if_neg hn]
    omega

theorem WF_Resize [Inhabited α] (s : Vector α) (n : Nat) (h : WF s) :
    WF (Resize s n) := by
  unfold Resize
  by_cases hlt : n < s.elems.length
  · rw [if_pos hlt]
    unfold WF at h ⊢
    simp only [List.length_take]
    omega
  · rw [if_neg hlt]
    obtain ⟨r1, r2⟩ := Reserve_spec s n
    unfold WF at h ⊢
    show ((Reserve s n).elems ++
      List.replicate (n - s.elems.length) default).length ≤
        (Reserve s n).capacity_
    rw [r1, r2]
    simp only [List.length_append, List.length_replicate]
    by_cases hn : n ≤ s.capacity_
    · rw [if_pos hn]
      omega
    · rw [if_neg hn]
      omega

theorem WF_copyAssign (l r : Vector α) (self : Bool) (hl : WF l) (hr : WF r) :
    WF (copyAssign l r self).1 := by
  unfold copyAssign
  cases self
  · rw [if_neg (by simp)]
    by_cases h1 : l.capacity_ < r.elems.length
    · rw [if_pos h1]
      unfold WF copyCtor
      simp
    · rw [if_neg h1]
      by_cases h2 : r.elems.length < l.elems.length
      · rw [if_pos h2]
        unfold WF at hl hr ⊢
        have := List.length_take_le r.elems.length
          (stdCopyN r.elems l.elems r.elems.length)
        simp only at this ⊢
        omega
      · rw [if_neg h2]
        unfold WF at hl hr ⊢
        unfold stdCopyN
        simp only [List.length_append, List.length_take, List.length_drop]
        omega
  · rw [if_pos rfl]
    exact hl

/-- C3: Every public operation of the dynamic array, called within its
precondition (`i <= size` for `Emplace`, `i < size` for `Erase`, a non-empty
vector for `PopBack` - outside them the source is undefined behavior, see the
C6 artifacts for the empty `PopBack` wrap), preserves the invariant
`0 <= size <= capacity` (the lower bound holds by the type); the slots
`[0, size)` hold exactly the live elements and `[size, capacity)` are raw by
the representation (a state is the list of its live elements plus the block's
slot count). -/
theorem claim_invariant_preservation (α : Type) [Inhabited α] :
    WF (mkEmpty : Vector α) ∧
    (∀ n : Nat, WF (mkSized (α := α) n)) ∧
    (∀ s : Vector α, WF (copyCtor s)) ∧
    (∀ s : Vector α, WF s → WF (moveCtor s).1 ∧ WF (moveCtor s).2) ∧
    (∀ (l r : Vector α) (self : Bool), WF l → WF r →
      WF (copyAssign l r self).1) ∧
    (∀ (l r : Vector α) (self : Bool), WF l → WF r →
      WF (moveAssign l r self).1 ∧ WF (moveAssign l r self).2) ∧
    (∀ a b : Vector α, WF a → WF b → WF (SwapV a b).1 ∧ WF (SwapV a b).2) ∧
    (∀ (s : Vector α) (n : Nat), WF s → WF (Reserve s n)) ∧
    (∀ (s : Vector α) (n : Nat), WF s → WF (Resize s n)) ∧
    (∀ (s : Vector α) (v : α), WF s → WF (PushBack s v)) ∧
    (∀ (s : Vector α) (v : α), WF s → WF (EmplaceBack s v)) ∧
    (∀ (s : Vector α) (i : Nat) (v : α), WF s → i ≤ s.Size →
      WF (Emplace s i v).1) ∧
    (∀ (s : Vector α) (i : Nat), WF s → i < s.Size → WF (Erase s i).1) ∧
    (∀ s : Vector α, WF s → s.Size ≠ 0 → WF (PopBack s)) := by
  refine ⟨?_, ?_, ?_, ?_, ?_, ?_, ?_, ?_, ?_, ?_, ?_, ?_, ?_, ?_⟩
  · simp [WF, mkEmpty]
  · intro n
    simp [WF, mkSized]
  · intro s
    simp [WF, copyCtor]
  · intro s h
    exact ⟨h, by simp [WF, moveCtor]⟩
  · exact WF_copyAssign
  · intro l r self hl hr
    unfold moveAssign
    cases self
    · rw [if_neg (by simp)]
      exact ⟨hr, by simp [WF]⟩
    · rw [if_pos rfl]
      exact ⟨hl, hr⟩
  · intro a b ha hb
    exact ⟨hb, ha⟩
  · intro s n h
    exact WF_Reserve s n h
  · intro s n h
    exact WF_Resize s n h
  · intro s v h
    exact WF_EmplaceBack s v h
  · intro s v h
    exact WF_EmplaceBack s v h
  · intro s i v h hi
    exact WF_Emplace s i v h hi
  · intro s i h hi
    obtain ⟨h1, h2, _⟩ := Erase_spec s i hi
    unfold WF at h ⊢
    rw [h1, h2]
    simp only [List.length_append, List.length_take, List.length_drop]
    omega
  · intro s h _hne
    unfold WF at h ⊢
    simp only [PopBack, List.length_dropLast]
    omega

/-- Witness for C3: the `Emplace` conjunct applied at a concrete full vector. -/
theorem claim_invariant_preservation_witness :
    WF (Emplace (⟨[1, 2], 2⟩ : Vector Nat) 1 7).1 :=
  (claim_invariant_preservation Nat).2.2.2.2.2.2.2.2.2.2.2.1
    ⟨[1, 2], 2⟩ 1 7 (by decide) (by decide)

/-- C6 counterexample: the claim says `PopBack` on an empty vector is caught
by a debug assertion in the operation; in the source `PopBack` contains no
assertion at all - its (vacuous) check passes on the empty vector and the
operation proceeds, destroying the slot at index `2^64 - 1` and wrapping
`size_` to `2^64 - 1`. -/
theorem claim_popback_assert_counterexample :
    PopBackAssert (mkEmpty : Vector Nat) = true ∧
    PopBackSizeAfter 0 = 2 ^ 64 - 1 ∧
    PopBackDestroySlot 0 = 2 ^ 64 - 1 := by
  refine ⟨rfl, ?_, ?_⟩ <;> decide

/-- C6 (amended): out-of-range indexing, `Erase` outside `[0, size)` and
`Emplace` outside `[0, size]` are precondition violations guarded by
debug-time assertions in the respective operations (in particular `Erase` on
an empty vector trips its assertion for every position); `PopBack` however
has no assertion: on an empty vector it proceeds, destroying a non-existent
element at wrapped slot index `2^64 - 1` and decrementing `size_` below zero
to `2^64 - 1` (undefined behavior, not caught). -/
theorem claim_precondition_guards (α : Type) :
    (∀ (s : Vector α) (i : Nat), subscriptAssert s i = true ↔ i < s.Size) ∧
    (∀ (s : Vector α) (i : Nat), EraseAssert s i = true ↔ i < s.Size) ∧
    (∀ (s : Vector α) (i : Nat), EmplaceAssert s i = true ↔ i ≤ s.Size) ∧
    (∀ i : Nat, EraseAssert (mkEmpty : Vector α) i = false) ∧
    (∀ s : Vector α, PopBackAssert s = true) ∧
    PopBackSizeAfter 0 = 2 ^ 64 - 1 ∧
    PopBackDestroySlot 0 = 2 ^ 64 - 1 := by
  refine ⟨?_, ?_, ?_, ?_, ?_, ?_, ?_⟩
  · intro s i
    simp [subscriptAssert, Size]
  · intro s i
    simp [EraseAssert, Size]
  · intro s i
    simp [EmplaceAssert, Size]
  · intro i
    simp [EraseAssert, mkEmpty]
  · intro s
    rfl
  · decide
  · decide

/-- C5: On the in-place copy-assignment path (source fits in the current
capacity), a run with no throw copies the source over the overlapping prefix,
then destroys the surplus or copy-constructs the extra elements, and ends
with exactly the source's elements at unchanged capacity; a run in which the
element operation on source index `j` throws leaves the vector partially
overwritten - `rhs` values up to `min(j, old size)`, old values beyond - but
fully destructible, with size still reporting the old value and capacity
unchanged (basic guarantee). -/
theorem claim_copy_assign_inplace_basic (lhs rhs : Vector α)
    (hle : rhs.Size ≤ lhs.Capacity) :
    copyAssignInPlaceRun lhs rhs none =
      Except.ok ⟨rhs.elems, lhs.capacity_⟩ ∧
    (∀ j, j < rhs.Size →
      copyAssignInPlaceRun lhs rhs (some j) =
        Except.error ⟨rhs.elems.take (min j lhs.Size) ++
          lhs.elems.drop (min j lhs.Size), lhs.capacity_⟩) ∧
    (∀ j e, j < rhs.Size →
      copyAssignInPlaceRun lhs rhs (some j) = Except.error e →
      e.Size = lhs.Size ∧ e.Capacity = lhs.Capacity) := by
  clear hle
  have herr : ∀ j, j < rhs.elems.length →
      copyAssignInPlaceRun lhs rhs (some j) =
        Except.error ⟨rhs.elems.take (min j lhs.elems.length) ++
          lhs.elems.drop (min j lhs.elems.length), lhs.capacity_⟩ := by
    intro j hj
    simp only [copyAssignInPlaceRun]
    by_cases h1 : j < min rhs.elems.length lhs.elems.length
    · rw [if_pos h1]
      have hmin : min j lhs.elems.length = j := by omega
      rw [hmin]
      rfl
    · have h2 : lhs.elems.length ≤ j ∧ j < rhs.elems.length := by omega
      rw [if_neg h1, if_pos h2]
      have hmin : min j lhs.elems.length = lhs.elems.length := by omega
      rw [hmin]
      rfl
  refine ⟨?_, fun j hj => herr j hj, ?_⟩
  · simp only [copyAssignInPlaceRun]
    by_cases h2 : rhs.elems.length < lhs.elems.length
    · rw [if_pos h2]
      unfold stdCopyN
      rw [List.take_length, List.take_left' rfl]
    · rw [if_neg h2]
      unfold stdCopyN
      rw [List.drop_length, List.append_nil, List.take_append_drop]
  · intro j e hj heq
    rw [herr j hj] at heq
    have he : e = ⟨rhs.elems.take (min j lhs.elems.length) ++
        lhs.elems.drop (min j lhs.elems.length), lhs.capacity_⟩ :=
      (Except.error.injEq _ _).mp heq.symm
    subst he
    refine ⟨?_, rfl⟩
    show (rhs.elems.take (min j lhs.elems.length) ++
      lhs.elems.drop (min j lhs.elems.length)).length = lhs.elems.length
    simp only [List.length_append, List.length_take, List.length_drop]
    have hj' : j < rhs.elems.length := hj
    omega

/-- Witness for C5: a throw while copy-assigning source element 1 over
`[1, 2, 3]` from `[7, 8]` leaves `[7, 2, 3]` with the old size 3. -/
theorem claim_copy_assign_inplace_basic_witness :
    copyAssignInPlaceRun (⟨[1, 2, 3], 4⟩ : Vector Nat) ⟨[7, 8], 2⟩ (some 1) =
      Except.error ⟨[7, 2, 3], 4⟩ := by
  have h := (claim_copy_assign_inplace_basic (⟨[1, 2, 3], 4⟩ : Vector Nat)
    ⟨[7, 8], 2⟩ (by decide)).2.1 1 (by decide)
  exact h.trans (congrArg Except.error (by decide))

theorem newCap_ne_zero (n : Nat) : (if n = 0 then 1 else n * 2) ≠ 0 := by
  by_cases h : n = 0
  · simp [h]
  · rw [if_neg h]
    omega

theorem blockDelta_allocB_newCap (n : Nat) :
    GrowEv.blockDelta (GrowEv.allocB (if n = 0 then 1 else n * 2)) = 1 := by
  simp only [GrowEv.blockDelta]
  rw [if_neg (newCap_ne_zero n)]

theorem blockDelta_deallocB_newCap (n : Nat) :
    GrowEv.blockDelta (GrowEv.deallocB (if n = 0 then 1 else n * 2)) = -1 := by
  simp only [GrowEv.blockDelta]
  rw [if_neg (newCap_ne_zero n)]

theorem sum_map_blockDelta_transfers (j : Nat) :
    (((List.range j).map GrowEv.transfer).map GrowEv.blockDelta).sum = 0 := by
  induction j with
  | zero => rfl
  | succ j ih =>
    rw [List.range_succ]
    simp only [List.map_append, List.sum_append, ih, List.map_cons,
      List.map_nil, List.sum_cons, List.sum_nil]
    rfl

/-- C1: In a growing `EmplaceBack` (`size == capacity`): if the new element's
constructor throws, the vector's size, capacity and contents are unchanged
and no block is leaked (the fresh block is released by RAII); whenever the
constructor does not throw, the new element is constructed into the fresh
block strictly before any existing element is transferred; and if the
transfer of an existing element throws, the already-constructed new element
is destroyed, the fresh block is released, and the vector is unchanged
(strong guarantee). -/
theorem claim_emplaceback_grow_strong (s : Vector α) (v : α) (ct : Bool)
    (failAt : Option Nat) (hgrow : s.Size = s.Capacity) :
    (ct = true → (EmplaceBackRun s v ct failAt).1 = Except.error s ∧
      netAlloc (EmplaceBackRun s v ct failAt).2 = 0) ∧
    (ct = false → GrowEv.constructNew s.Size ∈
      ((EmplaceBackRun s v ct failAt).2.takeWhile fun e => !e.isTransfer)) ∧
    (∀ j, ct = false → failAt = some j → j < s.Size →
      (EmplaceBackRun s v ct failAt).1 = Except.error s ∧
      GrowEv.destroyNew ∈ (EmplaceBackRun s v ct failAt).2 ∧
      netAlloc (EmplaceBackRun s v ct failAt).2 = 0) := by
  have hgrow' : s.elems.length = s.capacity_ := hgrow
  cases ct
  · refine ⟨fun h => absurd h (by simp), ?_, ?_⟩
    · intro _
      show GrowEv.constructNew s.elems.length ∈ _
      cases failAt with
      | none =>
        have hrun : EmplaceBackRun s v false none =
            (Except.ok (EmplaceBack s v),
              [GrowEv.allocB (if s.elems.length = 0 then 1 else
                  s.elems.length * 2),
                GrowEv.constructNew s.elems.length] ++
                (List.range s.elems.length).map GrowEv.transfer ++
                [GrowEv.destroyOldRange s.elems.length,
                  GrowEv.deallocB s.capacity_]) := by
          unfold EmplaceBackRun
          rw [if_pos hgrow']
          simp only [Bool.false_eq_true, if_false]
        rw [hrun]
        simp [List.takeWhile_cons, GrowEv.isTransfer]
      | some j =>
        by_cases hj : j < s.elems.length
        · have hrun : EmplaceBackRun s v false (some j) =
              (Except.error s,
                [GrowEv.allocB (if s.elems.length = 0 then 1 else
                    s.elems.length * 2),
                  GrowEv.constructNew s.elems.length] ++
                  (List.range j).map GrowEv.transfer ++
                  [GrowEv.destroyTransferred j, GrowEv.destroyNew,
                    GrowEv.deallocB (if s.elems.length = 0 then 1 else
                      s.elems.length * 2)]) := by
            unfold EmplaceBackRun
            rw [if_pos hgrow']
            simp only [Bool.false_eq_true, if_false]
            rw [if_pos hj]
          rw [hrun]
          simp [List.takeWhile_cons, GrowEv.isTransfer]
        · have hrun : EmplaceBackRun s v false (some j) =
              (Except.ok (EmplaceBack s v),
                [GrowEv.allocB (if s.elems.length = 0 then 1 else
                    s.elems.length * 2),
                  GrowEv.constructNew s.elems.length] ++
                  (List.range s.elems.length).map GrowEv.transfer ++
                  [GrowEv.destroyOldRange s.elems.length,
                    GrowEv.deallocB s.capacity_]) := by
            unfold EmplaceBackRun
            rw [if_pos hgrow']
            simp only [Bool.false_eq_true, if_false]
            rw [if_neg hj]
          rw [hrun]
          simp [List.takeWhile_cons, GrowEv.isTransfer]
    · intro j _ hfa hj
      subst hfa
      have hj' : j < s.elems.length := hj
      have hrun : EmplaceBackRun s v false (some j) =
          (Except.error s,
            [GrowEv.allocB (if s.elems.length = 0 then 1 else
                s.elems.length * 2),
              GrowEv.constructNew s.elems.length] ++
              (List.range j).map GrowEv.transfer ++
              [GrowEv.destroyTransferred j, GrowEv.destroyNew,
                GrowEv.deallocB (if s.elems.length = 0 then 1 else
                  s.elems.length * 2)]) := by
        unfold EmplaceBackRun
        rw [if_pos hgrow']
        simp only [Bool.false_eq_true, if_false]
        rw [if_pos hj']
      refine ⟨by rw [hrun], ?_, ?_⟩
      · show GrowEv.destroyNew ∈ (EmplaceBackRun s v false (some j)).2
        rw [hrun]
        simp
      · show netAlloc (EmplaceBackRun s v false (some j)).2 = 0
        rw [hrun]
        unfold netAlloc
        simp only [List.map_append, List.sum_append, List.map_cons,
          List.map_nil, List.sum_cons, List.sum_nil,
          sum_map_blockDelta_transfers, blockDelta_allocB_newCap,
          blockDelta_deallocB_newCap, GrowEv.blockDelta]
        omega
  · refine ⟨?_, fun h => absurd h (by simp),
      fun j h => absurd h (by simp)⟩
    intro _
    have hrun : EmplaceBackRun s v true failAt =
        (Except.error s,
          [GrowEv.allocB (if s.elems.length = 0 then 1 else
              s.elems.length * 2),
            GrowEv.deallocB (if s.elems.length = 0 then 1 else
              s.elems.length * 2)]) := by
      unfold EmplaceBackRun
      rw [if_pos hgrow']
      simp only [if_true]
    refine ⟨by rw [hrun], ?_⟩
    show netAlloc (EmplaceBackRun s v true failAt).2 = 0
    rw [hrun]
    unfold netAlloc
    simp only [List.map_cons, List.map_nil, List.sum_cons, List.sum_nil,
      blockDelta_allocB_newCap, blockDelta_deallocB_newCap]
    omega

/-- Witness for C1: growing append of 5 onto the full vector `[1, 2]` with a
throw while transferring old element 1 - the caller observes the unchanged
vector, the new element was destroyed, and no block leaked. -/
theorem claim_emplaceback_grow_strong_witness :
    (EmplaceBackRun (⟨[1, 2], 2⟩ : Vector Nat) 5 false (some 1)).1 =
      Except.error ⟨[1, 2], 2⟩ ∧
    GrowEv.destroyNew ∈
      (EmplaceBackRun (⟨[1, 2], 2⟩ : Vector Nat) 5 false (some 1)).2 ∧
    netAlloc (EmplaceBackRun (⟨[1, 2], 2⟩ : Vector Nat) 5 false (some 1)).2
      = 0 :=
  (claim_emplaceback_grow_strong ⟨[1, 2], 2⟩ 5 false (some 1) rfl).2.2 1 rfl
    rfl (by decide)

end Vector

end AdvVec
